import Mathlib

/-
Verification development for the litescript transpiler.

The transpiler is a sequence of whole-text rewrite passes over a source
buffer.  Each pass is embedded below as an executable Lean function over
`List Char`, translated line by line from the JavaScript sources:

  * `transformVariables`  — src/features/variables.js   (declaration inference)
  * `transformFunctions`  — src/features/functions.js   (function headers)
  * `transformCodeBlocks` — src/features/codeblocks.js  (control headers)
  * `transformArrays`     — src/features/arrays.js      (expression sugar)
  * `transformLog`        — src/features/log.js         (debug print calls)

Strings are modelled as `List Char`; positions are `Nat` indices.  The
JavaScript `\s` class is modelled by its ASCII portion (space, tab,
newline, carriage return, vertical tab, form feed); source programs are
taken to be ASCII text.
-/

namespace LiteScript

/-- ASCII portion of the JavaScript whitespace class `\s`. -/
def wsChar (c : Char) : Bool :=
  c = ' ' || c = '\t' || c = '\n' || c = '\r' || c = '\x0b' || c = '\x0c'

/-- JavaScript word character class `\w` = `[A-Za-z0-9_]`. -/
def wordChar (c : Char) : Bool :=
  (('a' ≤ c && c ≤ 'z') || ('A' ≤ c && c ≤ 'Z') || ('0' ≤ c && c ≤ '9') || c = '_')

/-- First character of a JavaScript identifier: `[a-zA-Z_$]`. -/
def identStart (c : Char) : Bool :=
  (('a' ≤ c && c ≤ 'z') || ('A' ≤ c && c ≤ 'Z') || c = '_' || c = '$')

/-- Later character of a JavaScript identifier: `[a-zA-Z0-9_$]`. -/
def identChar (c : Char) : Bool :=
  identStart c || ('0' ≤ c && c ≤ '9')

/-- The backquote character, third JavaScript quote style. -/
def backquote : Char := Char.ofNat 96

/-- Opening curly brace character. -/
def lbrace : Char := Char.ofNat 123

/-- Closing curly brace character. -/
def rbrace : Char := Char.ofNat 125

/-- JavaScript `String.prototype.trim` (ASCII whitespace model). -/
def trimL (l : List Char) : List Char :=
  ((l.dropWhile wsChar).reverse.dropWhile wsChar).reverse

/-- JavaScript `str.substring(a, b)` for `a ≤ b`: characters at indices
`[a, b)`. -/
def subL (l : List Char) (a b : Nat) : List Char :=
  (l.drop a).take (b - a)

/-- Leading-whitespace width of a line: `line.match(/^(\s*)/)[1].length`. -/
def indentWidth (l : List Char) : Nat :=
  (l.takeWhile wsChar).length

/-- `n` space characters, as in `' '.repeat(n)`. -/
def spacesL (n : Nat) : List Char :=
  List.replicate n ' '

/-- Does `sub` occur at position `p` of `l`? -/
def occursAt (l sub : List Char) (p : Nat) : Bool :=
  sub.isPrefixOf (l.drop p)

/-- JavaScript `str.indexOf(sub)`: index of the first occurrence, if any. -/
def indexOfSub (l sub : List Char) : Option Nat :=
  (List.range (l.length + 1)).find? (fun p => occursAt l sub p)

/-- JavaScript `str.indexOf(c, from)`: first index `≥ from` holding `c`. -/
def indexOfCharFrom (l : List Char) (c : Char) (start : Nat) : Option Nat :=
  (List.range l.length).find? (fun p => start ≤ p && l.get? p = some c)

/-- Does `sub` occur anywhere in `l` (JavaScript `includes`)? -/
def containsSub (l sub : List Char) : Bool :=
  (indexOfSub l sub).isSome

/-- JavaScript `str.split('\n')`. -/
def splitNl : List Char → List (List Char)
  | [] => [[]]
  | c :: rest =>
    let r := splitNl rest
    if c = '\n' then [] :: r
    else
      match r with
      | h :: t => (c :: h) :: t
      | [] => [[c]]

/-- JavaScript `lines.join('\n')`. -/
def joinNl (ls : List (List Char)) : List Char :=
  match ls with
  | [] => []
  | [l] => l
  | l :: rest => l ++ '\n' :: joinNl rest

/-! ## DeclarationInferencer — src/features/variables.js (`transformVariables`) -/

/-- One step of `source.replace(/\bconst\b/g, 'let')`: `prevWord` records
whether the character before the current position is a word character
(for the leading `\b`).  The `fuel` argument makes the recursion
structural; every step consumes at least one character, so any
`fuel ≥ length` computes the scan in full. -/
def replaceConstLetF : Nat → List Char → (prevWord : Bool) → List Char
  | 0, l, _ => l
  | _ + 1, [], _ => []
  | fuel + 1, c :: rest, prevWord =>
    if !prevWord && occursAt (c :: rest) ['c','o','n','s','t'] 0 &&
        (match rest.drop 4 with
         | [] => true
         | d :: _ => !wordChar d) then
      'l' :: 'e' :: 't' :: replaceConstLetF fuel (rest.drop 4) true
    else
      c :: replaceConstLetF fuel rest (wordChar c)

/-- `source.replace(/\bconst\b/g, 'let')`. -/
def replaceConstLet (l : List Char) : List Char :=
  replaceConstLetF l.length l false

/-- Match `^(let|const|var)\s+([a-zA-Z_$][a-zA-Z0-9_$]*)\s*=` against a
trimmed line, returning the identifier captured by the second group. -/
def declarationMatch (t : List Char) : Option (List Char) :=
  let tryKw : List Char → Option (List Char) := fun kw =>
    if kw.isPrefixOf t then
      let after := t.drop kw.length
      match after with
      | d :: _ =>
        if wsChar d then
          let after2 := after.dropWhile wsChar
          match after2 with
          | c :: _ =>
            if identStart c then
              let name := after2.takeWhile identChar
              let rest := (after2.dropWhile identChar).dropWhile wsChar
              match rest with
              | '=' :: _ => some name
              | _ => none
            else none
          | [] => none
        else none
      | [] => none
    else none
  match tryKw ['l','e','t'] with
  | some n => some n
  | none =>
    match tryKw ['c','o','n','s','t'] with
    | some n => some n
    | none => tryKw ['v','a','r']

/-- Match `^([a-zA-Z_$][a-zA-Z0-9_$]*)\s*=` against a trimmed line,
returning the identifier. -/
def assignmentMatch (t : List Char) : Option (List Char) :=
  match t with
  | c :: _ =>
    if identStart c then
      let name := t.takeWhile identChar
      let rest := (t.dropWhile identChar).dropWhile wsChar
      match rest with
      | '=' :: _ => some name
      | _ => none
    else none
  | [] => none

/-- State of the line scan of `transformVariables`.  `result` and
`declared` mirror the JavaScript `result` array and `declaredVars` set;
`prefixLog` is proof instrumentation recording, in order, each identifier
at the moment the scan prepends the `let` keyword for it (it does not
influence `result` or `declared`). -/
structure VarsState where
  result : List (List Char)
  declared : List (List Char)
  prefixLog : List (List Char)
deriving Repr, DecidableEq

/-- JavaScript `Set.prototype.add` on the declared-variable set. -/
def setAdd (s : List (List Char)) (x : List Char) : List (List Char) :=
  if x ∈ s then s else s ++ [x]

/-- One iteration of the line loop of `transformVariables`
(src/features/variables.js lines 23–67). -/
def varsStep (st : VarsState) (line : List Char) : VarsState :=
  let trimmed := trimL line
  if trimmed = [] then
    { st with result := st.result ++ [line] }
  else
    -- explicit declaration: strip the keyword, keep the assignment text
    let stripped : List Char :=
      match declarationMatch trimmed with
      | some varName =>
        let indent := line.takeWhile wsChar
        -- trimmed.substring(trimmed.indexOf(varName)); indexOf is the first
        -- occurrence of the name anywhere in the line (source behavior)
        let afterKeyword :=
          match indexOfSub trimmed varName with
          | some k => trimmed.drop k
          | none => trimmed
        indent ++ afterKeyword
      | none => line
    let trimmed2 := trimL stripped
    match assignmentMatch trimmed2 with
    | some varName =>
      let beforeVar :=
        match indexOfSub trimmed2 varName with
        | some k => subL trimmed2 0 k
        | none => trimmed2
      let isPropertyAccess :=
        beforeVar.any (fun c => c = '.' || c = '[' || c = ']' || c = '$')
      if !isPropertyAccess && varName ∉ st.declared then
        let indent := stripped.takeWhile wsChar
        let afterVar :=
          match indexOfSub trimmed2 varName with
          | some k => trimmed2.drop k
          | none => trimmed2
        { result := st.result ++ [indent ++ ['l','e','t',' '] ++ afterVar]
          declared := setAdd st.declared varName
          prefixLog := st.prefixLog ++ [varName] }
      else
        { st with result := st.result ++ [stripped] }
    | none =>
      { st with result := st.result ++ [stripped] }

/-- The full line scan. -/
def varsGo (st : VarsState) : List (List Char) → VarsState
  | [] => st
  | line :: rest => varsGo (varsStep st line) rest

/-- `transformVariables` on the character-list model. -/
def transformVariablesL (src : List Char) : List Char :=
  let replaced := replaceConstLet src
  joinNl (varsGo ⟨[], [], []⟩ (splitNl replaced)).result

/-- `transformVariables` — src/features/variables.js. -/
def transformVariables (s : String) : String :=
  (transformVariablesL s.toList).asString

/-! ## FunctionHeaderExpander — src/features/functions.js (`transformFunctions`)
    and ControlBlockNormalizer — src/features/codeblocks.js (`transformCodeBlocks`) -/

/-- Match of `^([a-zA-Z_$][a-zA-Z0-9_$]*)\s*\(([^)]*)\)\s*:\s*$` against a
trimmed line (`isFunctionDefinition`), returning name and parameter text. -/
def parseFuncHeader (t : List Char) : Option (List Char × List Char) :=
  match t with
  | [] => none
  | c :: _ =>
    if identStart c then
      let name := t.takeWhile identChar
      let after := (t.dropWhile identChar).dropWhile wsChar
      match after with
      | '(' :: r2 =>
        let params := r2.takeWhile (fun d => d ≠ ')')
        match r2.dropWhile (fun d => d ≠ ')') with
        | ')' :: r3 =>
          (match r3.dropWhile wsChar with
           | ':' :: r5 => if r5.dropWhile wsChar = [] then some (name, params) else none
           | _ => none)
        | _ => none
      | _ => none
    else none

/-- State of the indentation-stack machines of `transformFunctions` and
`transformCodeBlocks`.  `result` and `stack` mirror the JavaScript
`result` array and indentation stack (head of `stack` is the top, holding
the recorded indentation width of a pending opener).  `opens`, `closes`
and `openerLog` are proof instrumentation: they count the block-opening
and block-closing delimiters the pass emits, and record, for each line
matched as a header, its line index and whether it was pushed as an
opener.  They do not influence `result` or `stack`. -/
structure BlockState where
  result : List (List Char)
  stack : List Nat
  opens : Nat
  closes : Nat
  openerLog : List (Nat × Bool)
deriving Repr, DecidableEq

/-- The closing line `' '.repeat(indent) + '\x7d'`. -/
def closeLine (indent : Nat) : List Char :=
  spacesL indent ++ [rbrace]

/-- The loop `while (stack.length > 0 && stack[top].indent >= currentIndent)
pop-and-emit-close`, rendered with `takeWhile`/`dropWhile`: entries are
popped from the top while their recorded width is `≥ width`, each pop
emitting a closing line at the entry's recorded width. -/
def popStep (st : BlockState) (width : Nat) : BlockState :=
  let popped := st.stack.takeWhile (fun e => width ≤ e)
  { st with
    result := st.result ++ popped.map closeLine
    stack := st.stack.dropWhile (fun e => width ≤ e)
    closes := st.closes + popped.length }

/-- Does the list end with character `c` (JavaScript `endsWith` for a
single character)? -/
def lastIs (l : List Char) (c : Char) : Bool :=
  l.getLast? = some c

/-- The line loop of `transformFunctions` (src/features/functions.js lines
29–79).  `i` is the current line index; the head of the remaining list is
`lines[i]`, so `lines[i + 1]` is the head of its tail. -/
def funcGo (i : Nat) (st : BlockState) : List (List Char) → BlockState
  | [] => st
  | line :: rest =>
    let w := indentWidth line
    let st1 := popStep st w
    match parseFuncHeader (trimL line) with
    | some np =>
      let indent := line.takeWhile wsChar
      let tline := indent ++ "function ".toList ++ np.1 ++ ['('] ++ trimL np.2
                    ++ [')', ' ', lbrace]
      let st2 := { st1 with result := st1.result ++ [tline], opens := st1.opens + 1 }
      let hasBody : Bool :=
        match rest with
        | next :: _ => trimL next ≠ [] && w < indentWidth next
        | [] => false
      if hasBody then
        funcGo (i + 1)
          { st2 with stack := w :: st2.stack,
                     openerLog := st2.openerLog ++ [(i, true)] } rest
      else
        funcGo (i + 1)
          { st2 with result := st2.result ++ [closeLine w],
                     closes := st2.closes + 1,
                     openerLog := st2.openerLog ++ [(i, false)] } rest
    | none => funcGo (i + 1) { st1 with result := st1.result ++ [line] } rest

/-- The final `while (stack.length > 0) pop-and-emit-close` loop shared by
both passes: every pending entry is popped, innermost (head) first, each
appending a closing line at its recorded width. -/
def unwindState (st : BlockState) : BlockState :=
  { st with
    result := st.result ++ st.stack.map closeLine
    closes := st.closes + st.stack.length
    stack := [] }

/-- The machine of `transformFunctions` before the final unwind. -/
def funcRun (lines : List (List Char)) : BlockState :=
  funcGo 0 ⟨[], [], 0, 0, []⟩ lines

/-- `transformFunctions` on the character-list model. -/
def transformFunctionsL (src : List Char) : List Char :=
  joinNl (unwindState (funcRun (splitNl src))).result

/-- `transformFunctions` — src/features/functions.js. -/
def transformFunctions (s : String) : String :=
  (transformFunctionsL s.toList).asString

/-- After a keyword alternative, the regex tail `\s*\(`. -/
def wsThenLParen (r : List Char) : Bool :=
  match r.dropWhile wsChar with
  | '(' :: _ => true
  | _ => false

/-- Match of `^\s*(for|while|if|else\s+if)\s*\(` against a trimmed line. -/
def ctrlHeadMatch (t : List Char) : Bool :=
  ("for".toList.isPrefixOf t && wsThenLParen (t.drop 3)) ||
  ("while".toList.isPrefixOf t && wsThenLParen (t.drop 5)) ||
  ("if".toList.isPrefixOf t && wsThenLParen (t.drop 2)) ||
  ("else".toList.isPrefixOf t &&
    (match t.drop 4 with
     | d :: _ =>
       wsChar d &&
       (let r2 := (t.drop 4).dropWhile wsChar
        "if".toList.isPrefixOf r2 && wsThenLParen (r2.drop 2))
     | [] => false))

/-- The forward scan of `isControlStructure` looking for the parenthesis
matching the first opener: counts `(` and `)`, and when depth returns to
zero after an opener was seen, yields the rest of the line.  Yields `none`
when the scan exhausts the line (the JavaScript loop falls through). -/
def ctrlParenScan : List Char → Int → Bool → Option (List Char)
  | [], _, _ => none
  | c :: rest, depth, foundOpen =>
    if c = '(' then ctrlParenScan rest (depth + 1) true
    else if c = ')' then
      if foundOpen && depth - 1 = 0 then some rest
      else ctrlParenScan rest (depth - 1) foundOpen
    else ctrlParenScan rest depth foundOpen

/-- The fallback match `^\s*if\s+(.+)$` (with no `(` anywhere in the line)
of `isControlStructure`: accepts unless the trimmed condition ends in
`;`, `\x7b` or `\x7d`. -/
def ifNoParenCheck (t : List Char) : Bool :=
  if "if".toList.isPrefixOf t && !(t.any (fun c => c = '(')) then
    match t.drop 2 with
    | d :: _ =>
      if wsChar d then
        let condition := trimL (t.drop 2)
        !(lastIs condition ';' || lastIs condition lbrace || lastIs condition rbrace)
      else false
    | [] => false
  else false

/-- `isControlStructure` — src/features/codeblocks.js lines 18–55. -/
def isControlStructure (t : List Char) : Bool :=
  if t = "else".toList then true
  else if ctrlHeadMatch t then
    match ctrlParenScan t 0 false with
    | some rest =>
      let r := trimL rest
      r = [] || r = [lbrace] || r = [rbrace]
    | none => ifNoParenCheck t
  else ifNoParenCheck t

/-- The line loop of `transformCodeBlocks` (src/features/codeblocks.js
lines 60–103).  Blank lines are passed through before the pop loop runs. -/
def cbGo (i : Nat) (st : BlockState) : List (List Char) → BlockState
  | [] => st
  | line :: rest =>
    let trimmed := trimL line
    if trimmed = [] then
      cbGo (i + 1) { st with result := st.result ++ [line] } rest
    else
      let w := indentWidth line
      let st1 := popStep st w
      let needsBrace :=
        isControlStructure trimmed && !(lastIs trimmed lbrace) && !(lastIs trimmed rbrace)
      if needsBrace then
        let hasBody : Bool :=
          match rest with
          | next :: _ => trimL next ≠ [] && w < indentWidth next
          | [] => false
        if hasBody then
          cbGo (i + 1)
            { st1 with result := st1.result ++ [line ++ [' ', lbrace]],
                       stack := w :: st1.stack,
                       opens := st1.opens + 1,
                       openerLog := st1.openerLog ++ [(i, true)] } rest
        else
          cbGo (i + 1)
            { st1 with result := st1.result ++ [line],
                       openerLog := st1.openerLog ++ [(i, false)] } rest
      else
        cbGo (i + 1) { st1 with result := st1.result ++ [line] } rest

/-- The machine of `transformCodeBlocks` before the final unwind. -/
def cbRun (lines : List (List Char)) : BlockState :=
  cbGo 0 ⟨[], [], 0, 0, []⟩ lines

/-- `transformCodeBlocks` on the character-list model. -/
def transformCodeBlocksL (src : List Char) : List Char :=
  joinNl (unwindState (cbRun (splitNl src))).result

/-- `transformCodeBlocks` — src/features/codeblocks.js. -/
def transformCodeBlocks (s : String) : String :=
  (transformCodeBlocksL s.toList).asString

/-! ## LogCallExpander — src/features/log.js (`transformLog`) -/

/-- Is `c` one of the three JavaScript quote characters? -/
def quoteChar (c : Char) : Bool :=
  c = '"' || c = '\'' || c = backquote

/-- The argument splitter of log.js (`parseArguments`, lines 16–61):
comma-split at bracket depth zero, quote-aware, with backslash-escape
lookback inside strings.  `prev` is the character before the current one
(the JavaScript code reads `argsStr[i - 1]`). -/
def parseArgsLogGo : List Char → (current : List Char) → (depth : Int) →
    (inString : Bool) → (stringChar : Char) → (prev : Char) →
    (args : List (List Char)) → List (List Char)
  | [], current, _, _, _, _, args =>
    if trimL current ≠ [] then args ++ [trimL current] else args
  | c :: rest, current, depth, inString, stringChar, prev, args =>
    if !inString then
      if quoteChar c then
        parseArgsLogGo rest (current ++ [c]) depth true c c args
      else if c = '(' || c = '[' || c = lbrace then
        parseArgsLogGo rest (current ++ [c]) (depth + 1) false stringChar c args
      else if c = ')' || c = ']' || c = rbrace then
        parseArgsLogGo rest (current ++ [c]) (depth - 1) false stringChar c args
      else if c = ',' && depth = 0 then
        parseArgsLogGo rest [] depth false stringChar c (args ++ [trimL current])
      else
        parseArgsLogGo rest (current ++ [c]) depth false stringChar c args
    else
      if c = stringChar && prev ≠ '\\' then
        parseArgsLogGo rest (current ++ [c]) depth false stringChar c args
      else
        parseArgsLogGo rest (current ++ [c]) depth true stringChar c args

/-- `parseArguments` of log.js.  The `prev` character starts as a
non-backslash placeholder (JavaScript reads `argsStr[-1]`, `undefined`). -/
def parseArgsLog (argsStr : List Char) : List (List Char) :=
  if trimL argsStr = [] then []
  else parseArgsLogGo argsStr [] 0 false ' ' ' ' []

/-- `isStringLiteral` — log.js lines 68–75: the trimmed text starts and
ends with the same quote character, for one of the three quote styles. -/
def isStringLiteral (s : List Char) : Bool :=
  let t := trimL s
  (t.head? = some '"' && lastIs t '"') ||
  (t.head? = some '\'' && lastIs t '\'') ||
  (t.head? = some backquote && lastIs t backquote)

/-- Is the whole (trimmed) text a single identifier
(`/^[a-zA-Z_$][a-zA-Z0-9_$]*$/`)? -/
def isIdentOnly (t : List Char) : Bool :=
  match t with
  | [] => false
  | c :: rest => identStart c && rest.all identChar

/-- Match of `^([a-zA-Z_$][a-zA-Z0-9_$]*)\s*\.\s*([a-zA-Z_$][a-zA-Z0-9_$]*)`:
identifier, dot, identifier (property access). -/
def identDotIdent (t : List Char) : Bool :=
  match t with
  | c :: _ =>
    identStart c &&
    (match (t.dropWhile identChar).dropWhile wsChar with
     | '.' :: r2 =>
       (match r2.dropWhile wsChar with
        | d :: _ => identStart d
        | [] => false)
     | _ => false)
  | _ => false

/-- `extractVariableName` — log.js lines 84–102.  Every branch returns the
trimmed expression; the branch structure of the source is kept. -/
def extractVariableName (expr : List Char) : List Char :=
  let trimmed := trimL expr
  if isIdentOnly trimmed then trimmed
  else if identDotIdent trimmed then trimmed
  else trimmed

/-- JavaScript `list.join(', ')`. -/
def joinSep : List (List Char) → List Char
  | [] => []
  | [a] => a
  | a :: rest => a ++ ", ".toList ++ joinSep rest

/-- The `parts` array of the all-variables branch (log.js lines 213–222):
for each argument a label built from `extractVariableName` (prefixed with
a literal `\n` for every argument after the first) followed by the
argument itself. -/
def labelParts : List (List Char) → (first : Bool) → List (List Char)
  | [], _ => []
  | a :: rest, first =>
    let varName := extractVariableName a
    (if first then ['\''] ++ varName ++ " =>'".toList
     else "'\\n".toList ++ varName ++ " =>'".toList) :: a ::
      labelParts rest false

/-- The replacement text of one located `log(...)` call, by argument count
and kind — log.js lines 168–228.  Every branch of the source splices
`'console.log(' ⋯ ')'` in place of the match; this function is that
spliced text. -/
def logReplacement (args : List (List Char)) : List Char :=
  match args with
  | [] => "console.log()".toList
  | [arg] =>
    if isStringLiteral arg then
      "console.log(".toList ++ arg ++ [')']
    else
      let varName := extractVariableName arg
      "console.log('".toList ++ varName ++ " =>', ".toList ++ arg ++ [')']
  | firstArg :: restArgs =>
    let isFirstString := isStringLiteral firstArg
    let allAreVariables :=
      (firstArg :: restArgs).all (fun a => !isStringLiteral a)
    if isFirstString || !allAreVariables then
      "console.log(".toList ++ joinSep (firstArg :: restArgs) ++ [')']
    else
      "console.log(".toList ++ joinSep (labelParts (firstArg :: restArgs) true) ++ [')']

/-- Positions `p` where the pattern `\blog\s*\(` matches the buffer,
together with the length of the matched text.  The word boundary requires
position zero or a preceding non-word character. -/
def logMatchAt (s : List Char) (p : Nat) : Option Nat :=
  let boundary :=
    match p with
    | 0 => true
    | q + 1 =>
      match s.get? q with
      | some c => !wordChar c
      | none => false
  if boundary && occursAt s "log".toList p then
    let after := s.drop (p + 3)
    let wsLen := (after.takeWhile wsChar).length
    match after.dropWhile wsChar with
    | '(' :: _ => some (3 + wsLen + 1)
    | _ => none
  else none

/-- All matches of `\blog\s*\(` in the buffer, left to right, as
(position, match length) pairs. -/
def logMatches (s : List Char) : List (Nat × Nat) :=
  (List.range s.length).filterMap (fun p =>
    match logMatchAt s p with
    | some len => some (p, len)
    | none => none)

/-- The forward scan for the parenthesis closing a located call
(log.js lines 135–158 and arrays.js lines 302–323): depth over
`()[]\x7b\x7d`, quote-aware; `esc` says whether string characters are
de-escaped with a backslash lookback (true in log.js, false in
arrays.js).  Returns the exclusive end position of the call. -/
def scanCloseGo : List Char → (pos : Nat) → (depth : Int) →
    (inString : Bool) → (stringChar : Char) → (prev : Char) → (esc : Bool) →
    Option Nat
  | [], _, _, _, _, _, _ => none
  | c :: rest, pos, depth, inString, stringChar, prev, esc =>
    if !inString then
      if quoteChar c then
        scanCloseGo rest (pos + 1) depth true c c esc
      else if c = '(' || c = '[' || c = lbrace then
        scanCloseGo rest (pos + 1) (depth + 1) false stringChar c esc
      else if c = ')' || c = ']' || c = rbrace then
        if depth - 1 = 0 then some (pos + 1)
        else scanCloseGo rest (pos + 1) (depth - 1) false stringChar c esc
      else
        scanCloseGo rest (pos + 1) depth false stringChar c esc
    else
      if c = stringChar && (!esc || prev ≠ '\\') then
        scanCloseGo rest (pos + 1) depth false stringChar c esc
      else
        scanCloseGo rest (pos + 1) depth true stringChar c esc

/-- Scan from position `pos` of `s` for the balancing close, starting at
depth 1. -/
def scanClose (s : List Char) (pos : Nat) (esc : Bool) : Option Nat :=
  scanCloseGo (s.drop pos) pos 1 false ' ' ' ' esc

/-- Splice `repl` over positions `[a, b)` of `out`. -/
def splice (out : List Char) (a b : Nat) (repl : List Char) : List Char :=
  subL out 0 a ++ repl ++ out.drop b

/-- Rewrite one located `log` call: the argument list is read from the
original source text, the replacement is spliced into the evolving
output (log.js lines 124–230). -/
def logRewriteOne (src : List Char) (out : List Char) (m : Nat × Nat) : List Char :=
  match scanClose src (m.1 + m.2) true with
  | none => out
  | some endPos =>
    let argsStr := subL src (m.1 + m.2) (endPos - 1)
    let args := parseArgsLog argsStr
    splice out m.1 endPos (logReplacement args)

/-- `transformLog` on the character-list model: matches collected over the
source, processed right to left. -/
def transformLogL (src : List Char) : List Char :=
  (logMatches src).reverse.foldl (logRewriteOne src) src

/-- `transformLog` — src/features/log.js. -/
def transformLog (s : String) : String :=
  (transformLogL s.toList).asString

/-! ## ExpressionSugarExpander — src/features/arrays.js (`transformArrays`) -/

/-- The argument splitter of arrays.js (`parseArguments`, lines 9–35):
comma-split at parenthesis depth zero only (no bracket or quote
handling). -/
def parseArgsAGo : List Char → (current : List Char) → (depth : Int) →
    (args : List (List Char)) → List (List Char)
  | [], current, _, args =>
    if trimL current ≠ [] then args ++ [trimL current] else args
  | c :: rest, current, depth, args =>
    if c = '(' then parseArgsAGo rest (current ++ [c]) (depth + 1) args
    else if c = ')' then parseArgsAGo rest (current ++ [c]) (depth - 1) args
    else if c = ',' && depth = 0 then
      parseArgsAGo rest [] depth (args ++ [trimL current])
    else parseArgsAGo rest (current ++ [c]) depth args

/-- `parseArguments` of arrays.js. -/
def parseArgsA (content : List Char) : List (List Char) :=
  parseArgsAGo content [] 0 []

/-- `areSimpleArgs` — arrays.js lines 252–259: at least one argument and
no argument contains a function-literal marker. -/
def areSimpleArgs (args : List (List Char)) : Bool :=
  args ≠ [] &&
  args.all (fun a => !containsSub a "=>".toList && !containsSub a "function".toList)

/-- Match of the pattern `\.\s*name(?=\s*(?:\(|;|,|\]|\)|$|\s))` at
position `p`: a dot, optional whitespace, the property name, and a
lookahead requiring end of text, whitespace, or one of `( ; , ] )`. -/
def propPatternAt (s name : List Char) (p : Nat) : Bool :=
  match s.drop p with
  | '.' :: r =>
    let r2 := r.dropWhile wsChar
    if name.isPrefixOf r2 then
      match r2.drop name.length with
      | [] => true
      | d :: _ => wsChar d || d = '(' || d = ';' || d = ',' || d = ']' || d = ')'
    else false
  | _ => false

/-- Index of the rightmost match of the property pattern, if any
(the `pattern.exec` loop of `findRightmostProperty`, lines 49–59). -/
def rightmostPropPos (s name : List Char) : Option Nat :=
  ((List.range s.length).filter (propPatternAt s name)).getLast?

/-- Backward whitespace walk: from index cursor `cur` (denoting the
JavaScript position `cur - 1`), step left over whitespace; returns the
cursor of the first non-whitespace character (0 when the walk passes the
start of the text). -/
def skipWsBack (s : List Char) : Nat → Nat
  | 0 => 0
  | cur + 1 =>
    match s.get? cur with
    | some c => if wsChar c then skipWsBack s cur else cur + 1
    | none => cur + 1

/-- Backward identifier walk over `[\w$]` (lines 100–105), cursor
convention as in `skipWsBack`; returns the expression start index. -/
def identWalkBack (s : List Char) : Nat → Nat
  | 0 => 0
  | cur + 1 =>
    match s.get? cur with
    | some c => if wordChar c || c = '$' then identWalkBack s cur else cur + 1
    | none => cur + 1

/-- Backward scan to the opener matching a closing bracket (lines 77–98):
only the one bracket pair is counted; on reaching depth zero the opener
index is the expression start, with the (unreachable, see below) spread
extension.  `dflt` is the closing bracket's own index, kept when the scan
exhausts the text.  The source compares the 3-character substring
`str.substring(pos - 3, pos)` with the 4-character text `[...`, which
never succeeds; the comparison is reproduced as written. -/
def bracketBack (s : List Char) (openC closeC : Char) : Nat → Int → Nat → Nat
  | 0, _, dflt => dflt
  | cur + 1, depth, dflt =>
    match s.get? cur with
    | none => dflt
    | some c =>
      if c = openC then
        if depth - 1 = 0 then
          if cur > 2 && subL s (cur - 3) cur = "[...".toList then cur - 3 else cur
        else bracketBack s openC closeC cur (depth - 1) dflt
      else if c = closeC then bracketBack s openC closeC cur (depth + 1) dflt
      else bracketBack s openC closeC cur depth dflt

/-- The operator class of line 118: `[=+\-*\/<>!&|?:,;\[\x7b\(]`. -/
def opChar (c : Char) : Bool :=
  c = '=' || c = '+' || c = '-' || c = '*' || c = '/' || c = '<' || c = '>' ||
  c = '!' || c = '&' || c = '|' || c = '?' || c = ':' || c = ',' || c = ';' ||
  c = '[' || c = lbrace || c = '('

/-- The whitespace/operator adjustment of lines 111–123: walk left over
whitespace from the expression start; if the character before that
whitespace is an operator, keep the original start (exclude the
whitespace), otherwise include the whitespace. -/
def wsOpAdjust (s : List Char) (exprStart : Nat) : Nat :=
  let f := skipWsBack s exprStart
  if f > 0 &&
      (match s.get? (f - 1) with
       | some c => opChar c
       | none => false) then
    exprStart
  else f

/-- A located property operand: the index the match will replace from and
the recovered operand text. -/
structure PropLoc where
  index : Nat
  arrExpr : List Char
deriving Repr, DecidableEq

/-- The backward operand recovery of `findRightmostProperty` (lines
62–126) run at dot position `dotPos`. -/
def propBackScan (s : List Char) (dotPos : Nat) : PropLoc :=
  let cur := skipWsBack s dotPos
  let exprEnd := cur
  let exprStart :=
    match (if cur > 0 then s.get? (cur - 1) else none) with
    | some ']' => bracketBack s '[' ']' (cur - 1) 1 (cur - 1)
    | some ')' => bracketBack s '(' ')' (cur - 1) 1 (cur - 1)
    | _ => identWalkBack s cur
  let fs := wsOpAdjust s exprStart
  { index := fs, arrExpr := trimL (subL s fs exprEnd) }

/-- `findRightmostProperty` — arrays.js lines 41–129. -/
def findRightmostProperty (s name : List Char) : Option PropLoc :=
  match rightmostPropPos s name with
  | some p => some (propBackScan s p)
  | none => none

/-- Match of `^escaped(arrExpr)\s*\.\s*escaped(name)` (lines 357–366)
against the text at the located index: the operand text literally, then
optional whitespace, a dot, optional whitespace, and the property name.
Returns the length of the matched text. -/
def fullPatternLen (rest arrExpr name : List Char) : Option Nat :=
  if arrExpr.isPrefixOf rest then
    let r1 := rest.drop arrExpr.length
    let w1 := (r1.takeWhile wsChar).length
    match r1.dropWhile wsChar with
    | '.' :: r2 =>
      let w2 := (r2.takeWhile wsChar).length
      if name.isPrefixOf (r2.dropWhile wsChar) then
        some (arrExpr.length + w1 + 1 + w2 + name.length)
      else none
    | _ => none
  else none

/-- Match of `^\s*\(([^)]*)\)`: optional whitespace, an open parenthesis,
text up to the first close parenthesis, and that close parenthesis.
Returns the full match length and the inner text. -/
def parenMatchA (after : List Char) : Option (Nat × List Char) :=
  let w := (after.takeWhile wsChar).length
  match after.dropWhile wsChar with
  | '(' :: r =>
    let inner := r.takeWhile (fun c => c ≠ ')')
    match r.dropWhile (fun c => c ≠ ')') with
    | ')' :: _ => some (w + 1 + inner.length + 1, inner)
    | _ => none
  | _ => none

/-- Length of a match of `^\s*\(\)` (the `hasEmptyParens` check), if any. -/
def emptyParensLen (after : List Char) : Option Nat :=
  let w := (after.takeWhile wsChar).length
  match after.dropWhile wsChar with
  | '(' :: ')' :: _ => some (w + 2)
  | _ => none

/-- The zero-argument validity decision (`shouldTransform`, lines
375–398): with nothing or whitespace after the property, accept unless a
following parenthesized list has non-blank content; otherwise accept an
immediately following empty pair `()` or one of `; , ] )`. -/
def shouldTransformZero (after : List Char) : Bool :=
  if after = [] ||
      (match after with
       | c :: _ => wsChar c
       | [] => false) then
    match parenMatchA after with
    | some p => trimL p.2 = []
    | none => true
  else
    match after with
    | '(' :: _ =>
      (match parenMatchA after with
       | some p => trimL p.2 = []
       | none => false)
    | c :: _ => c = ';' || c = ',' || c = ']' || c = ')'
    | [] => false

/-- A match candidate: start offset, exclusive end offset, and computed
replacement text (the `allMatches` entries of arrays.js). -/
structure AMatch where
  start : Nat
  stop : Nat
  repl : List Char
deriving Repr, DecidableEq

/-- Candidate assembly for a zero-argument property rule at a located
operand (arrays.js lines 350–417). -/
def propCandidateZero (out name : List Char) (replF : List Char → List Char)
    (loc : PropLoc) : Option AMatch :=
  if "[...".toList.isPrefixOf (trimL loc.arrExpr) then none
  else
    match fullPatternLen (out.drop loc.index) loc.arrExpr name with
    | none => none
    | some len =>
      let after := out.drop (loc.index + len)
      if shouldTransformZero after then
        let endPos :=
          match indexOfCharFrom out '.' loc.index with
          | some d => d + 1 + name.length
          | none => loc.index + len
        let finalEnd := endPos + (emptyParensLen after).getD 0
        some ⟨loc.index, finalEnd, replF loc.arrExpr⟩
      else none

/-- Candidate assembly for a one-argument property rule (arrays.js lines
418–441); the argument list regex `^\s*\(([^)]+)\)` requires non-empty
inner text. -/
def propCandidateOne (out name : List Char)
    (replF : List Char → List Char → List Char) (loc : PropLoc) : Option AMatch :=
  if "[...".toList.isPrefixOf (trimL loc.arrExpr) then none
  else
    match fullPatternLen (out.drop loc.index) loc.arrExpr name with
    | none => none
    | some len =>
      let after := out.drop (loc.index + len)
      match parenMatchA after with
      | some p =>
        if p.2 = [] then none
        else
          let args := parseArgsA p.2
          if args.length = 1 && areSimpleArgs args then
            some ⟨loc.index, loc.index + len + p.1, replF loc.arrExpr args.head!⟩
          else none
      | none => none

/-- Match of `\brange\s*\(` at position `p`: word boundary, the name
`range`, optional whitespace, an open parenthesis.  Returns the match
length. -/
def rangeMatchAt (s : List Char) (p : Nat) : Option Nat :=
  let boundary :=
    match p with
    | 0 => true
    | q + 1 =>
      match s.get? q with
      | some c => !wordChar c
      | none => false
  if boundary && occursAt s "range".toList p then
    let after := s.drop (p + 5)
    let wsLen := (after.takeWhile wsChar).length
    match after.dropWhile wsChar with
    | '(' :: _ => some (5 + wsLen + 1)
    | _ => none
  else none

/-- All matches of `\brange\s*\(`, left to right. -/
def rangeMatches (s : List Char) : List (Nat × Nat) :=
  (List.range s.length).filterMap (fun p =>
    match rangeMatchAt s p with
    | some len => some (p, len)
    | none => none)

/-- The replacement template for `range` (arrays.js lines 229–239),
reproduced character for character. -/
def rangeReplacement (args : List (List Char)) : Option (List Char) :=
  match args with
  | [a, b, c] =>
    let abs := "Math.abs(".toList ++ c ++ [')']
    some ("((".toList ++ a ++ ") < (".toList ++ b ++
      ") ? Array.from(\x7b length: Math.ceil((((".toList ++ b ++
      ") - (".toList ++ a ++ ")) / ".toList ++ abs ++
      ")) \x7d, (_, i) => (+".toList ++ a ++ ") + i * ".toList ++ abs ++
      ") : Array.from(\x7b length: Math.ceil((((".toList ++ a ++
      ") - (".toList ++ b ++ ")) / ".toList ++ abs ++
      ")) \x7d, (_, i) => (+".toList ++ a ++ ") - i * ".toList ++ abs ++ "))".toList)
  | [a, b] =>
    some ("((".toList ++ a ++ ") < (".toList ++ b ++
      ") ? Array.from(\x7b length: (".toList ++ b ++ ") - (".toList ++ a ++
      ") \x7d, (_, i) => (+".toList ++ a ++
      ") + i) : Array.from(\x7b length: (".toList ++ a ++ ") - (".toList ++ b ++
      ") \x7d, (_, i) => (+".toList ++ a ++ ") - i))".toList)
  | _ => none

/-- The right-to-left scan over the standalone matches (arrays.js lines
291–347): the first (rightmost) occurrence with a balanced argument list,
accepted arity and simple arguments yields the rule's candidate, ending
the scan.  The list supplied is already reversed (rightmost first). -/
def rangeScanRev (out : List Char) : List (Nat × Nat) → Option AMatch
  | [] => none
  | (p, len) :: rest =>
    match scanClose out (p + len) false with
    | some endPos =>
      let args := parseArgsA (subL out (p + len) (endPos - 1))
      if (args.length = 2 || args.length = 3) && areSimpleArgs args then
        match rangeReplacement args with
        | some repl => some ⟨p, endPos, repl⟩
        | none => rangeScanRev out rest
      else rangeScanRev out rest
    | none => rangeScanRev out rest

/-- The shape and replacement builder of one expansion rule. -/
inductive RuleKind where
  | prop0 : (List Char → List Char) → RuleKind
  | prop1 : (List Char → List Char → List Char) → RuleKind
  | standalone : RuleKind

/-- The unified transformation table of arrays.js (lines 147–241), in
source order. -/
def transformationTable : List (List Char × RuleKind) :=
  [ ("sort".toList, .prop0 (fun e => e ++ ".sort((a,b)=>a-b)".toList)),
    ("reverse".toList, .prop0 (fun e => e ++ ".reverse()".toList)),
    ("unique".toList, .prop0 (fun e => "[...new Set(".toList ++ e ++ ")]".toList)),
    ("sum".toList, .prop0 (fun e => e ++ ".reduce((a,b) => a + b, 0)".toList)),
    ("max".toList, .prop0 (fun e => "Math.max(...".toList ++ e ++ [')'])),
    ("min".toList, .prop0 (fun e => "Math.min(...".toList ++ e ++ [')'])),
    ("len".toList, .prop0 (fun e => e ++ ".length".toList)),
    ("mul".toList, .prop0 (fun e => e ++ ".reduce((a,b) => a * b, 1)".toList)),
    ("filter!".toList, .prop1 (fun e v => e ++ ".filter(v => v !== ".toList ++ v ++ [')'])),
    ("filter".toList, .prop1 (fun e v => e ++ ".filter(v => v === ".toList ++ v ++ [')'])),
    ("count!".toList, .prop1 (fun e v => e ++ ".filter(v => v !== ".toList ++ v ++ ").length".toList)),
    ("count".toList, .prop1 (fun e v => e ++ ".filter(v => v === ".toList ++ v ++ ").length".toList)),
    ("range".toList, .standalone) ]

/-- The candidate one rule contributes to a pass, if any: property rules
examine only the rightmost occurrence of their pattern; the standalone
rule scans its occurrences right to left for the first valid one. -/
def ruleCandidate (out : List Char) : List Char × RuleKind → Option AMatch
  | (name, .prop0 f) =>
    (match findRightmostProperty out name with
     | some loc => propCandidateZero out name f loc
     | none => none)
  | (name, .prop1 f) =>
    (match findRightmostProperty out name with
     | some loc => propCandidateOne out name f loc
     | none => none)
  | (_, .standalone) => rangeScanRev out (rangeMatches out).reverse

/-- The `allMatches` list of one pass, in transformation-table order. -/
def collectMatches (out : List Char) : List AMatch :=
  transformationTable.filterMap (ruleCandidate out)

/-- The selection `allMatches.sort((a, b) => b.start - a.start)[0]`:
stable descending sort by start offset, then the head — the first listed
candidate among those with the maximal start offset. -/
def pickMax : List AMatch → Option AMatch
  | [] => none
  | m :: rest =>
    match pickMax rest with
    | none => some m
    | some m' => some (if m'.start > m.start then m' else m)

/-- One pass of the fixpoint loop: collect candidates, splice the
selected rightmost one (arrays.js lines 262–461).  `none` means the pass
found nothing and the loop stops. -/
def arraysPass (out : List Char) : Option (List Char) :=
  match pickMax (collectMatches out) with
  | none => none
  | some m => if m.repl = [] then none else some (splice out m.start m.stop m.repl)

/-- The pass loop with the remaining pass budget as fuel: when the budget
is exhausted the current buffer is returned as is. -/
def arraysGo : Nat → List Char → List Char
  | 0, out => out
  | fuel + 1, out =>
    match arraysPass out with
    | none => out
    | some out2 => arraysGo fuel out2

/-- The pass cap `maxPasses` of arrays.js (line 140). -/
def maxPasses : Nat := 100

/-- `transformArrays` on the character-list model. -/
def transformArraysL (src : List Char) : List Char :=
  arraysGo maxPasses src

/-- `transformArrays` — src/features/arrays.js. -/
def transformArrays (s : String) : String :=
  (transformArraysL s.toList).asString

/-! ## Specification-side definitions

The following definitions are written from the wording of the
specification (not from the source); they are compared with the source
embeddings in the theorems below. -/

/-- Spec-side (claim C3): the first non-blank line after line `i` is
indented strictly deeper than line `i`. -/
def nextNonBlankDeeper (lines : List (List Char)) (i : Nat) : Bool :=
  match (lines.drop (i + 1)).filter (fun l => trimL l ≠ []) with
  | [] => false
  | next :: _ => indentWidth (lines.getD i []) < indentWidth next

/-- Amended condition for C3: the immediately following line exists, is
non-blank, and is indented strictly deeper than line `i`. -/
def immediateNextDeeper (lines : List (List Char)) (i : Nat) : Bool :=
  match lines.drop (i + 1) with
  | [] => false
  | next :: _ => trimL next ≠ [] && indentWidth (lines.getD i []) < indentWidth next

/-- Denotation of `Array.from(\x7b length: n \x7d, (_, i) => f i)` for an
integer length: `max n 0` elements `f 0, f 1, …`. -/
def jsArrayFrom (len : Int) (f : Nat → Int) : List Int :=
  (List.range len.toNat).map f

/-- Denotation of `Math.ceil(x / t)` for integers with `t > 0`: the
ceiling of the exact quotient. -/
def ceilDivInt (x t : Int) : Int :=
  -((-x) / t)

/-- Denotation, for integer arguments `a` and `b`, of the two-argument
replacement template produced by `rangeReplacement`:
`(a) < (b) ? Array.from(\x7b length: (b) - (a) \x7d, (_, i) => (+a) + i)
: Array.from(\x7b length: (a) - (b) \x7d, (_, i) => (+a) - i)`. -/
def range2Den (a b : Int) : List Int :=
  if a < b then jsArrayFrom (b - a) (fun i => a + i)
  else jsArrayFrom (a - b) (fun i => a - i)

/-- Denotation, for integer arguments, of the three-argument replacement
template produced by `rangeReplacement`, whose length expressions are
`Math.ceil` of the exact quotient by `Math.abs(s)` and whose elements
step by `Math.abs(s)`. -/
def range3Den (a b s : Int) : List Int :=
  if a < b then jsArrayFrom (ceilDivInt (b - a) |s|) (fun i => a + i * |s|)
  else jsArrayFrom (ceilDivInt (a - b) |s|) (fun i => a - i * |s|)

/-- Spec-side (claim C7): ascending half-open sequence from `a` toward
`b` with step `t`, element by element.  The fuel `(b - a).toNat` suffices
for every step `t ≥ 1`. -/
def ascSeq : Nat → Int → Int → Int → List Int
  | 0, _, _, _ => []
  | fuel + 1, a, b, t => if a < b then a :: ascSeq fuel (a + t) b t else []

/-- Spec-side (claim C7): descending half-open sequence from `a` toward
`b` with step `t`. -/
def descSeq : Nat → Int → Int → Int → List Int
  | 0, _, _, _ => []
  | fuel + 1, a, b, t => if b < a then a :: descSeq fuel (a - t) b t else []

/-- Spec-side (claim C7): the half-open integer sequence from `a` toward
`b` — ascending when `a < b`, descending when `a > b`, always excluding
`b`, with step magnitude `t`. -/
def towardSeq (a b t : Int) : List Int :=
  if a < b then ascSeq (b - a).toNat a b t
  else descSeq (a - b).toNat a b t

/-- Spec-side (claim C8): the labelled parts of a multi-argument debug
print whose arguments are all non-literal — every argument preceded by a
label equal to the argument's own source text suffixed with ` =>`, every
label after the first prefixed with a line break. -/
def specLabelParts : List (List Char) → (first : Bool) → List (List Char)
  | [], _ => []
  | a :: rest, first =>
    (if first then ['\''] ++ a ++ " =>'".toList
     else "'\\n".toList ++ a ++ " =>'".toList) :: a ::
      specLabelParts rest false

/-- Spec-side (claim C8): the rewrite of one located debug-print call by
argument count and kind, labels built from each argument's own source
text. -/
def logReplacementSpec (args : List (List Char)) : List Char :=
  match args with
  | [] => "console.log()".toList
  | [arg] =>
    if isStringLiteral arg then
      "console.log(".toList ++ arg ++ [')']
    else
      "console.log('".toList ++ arg ++ " =>', ".toList ++ arg ++ [')']
  | firstArg :: restArgs =>
    if isStringLiteral firstArg ||
        (firstArg :: restArgs).any (fun a => isStringLiteral a) then
      "console.log(".toList ++ joinSep (firstArg :: restArgs) ++ [')']
    else
      "console.log(".toList ++ joinSep (specLabelParts (firstArg :: restArgs) true) ++ [')']

/-! ## Helper lemmas -/

theorem setAdd_subset (s : List (List Char)) (x : List Char) : s ⊆ setAdd s x := by
  unfold setAdd
  split
  · exact fun y hy => hy
  · exact List.subset_append_left s [x]

theorem mem_setAdd_self (s : List (List Char)) (x : List Char) : x ∈ setAdd s x := by
  unfold setAdd
  split
  · assumption
  · exact List.mem_append_right s (List.mem_singleton.mpr rfl)

theorem varsStep_declared_sub (st : VarsState) (line : List Char) :
    st.declared ⊆ (varsStep st line).declared := by
  unfold varsStep
  dsimp only
  split
  · exact fun y hy => hy
  · split
    · split
      · exact setAdd_subset _ _
      · exact fun y hy => hy
    · exact fun y hy => hy

theorem varsStep_prefixLog_new (st : VarsState) (line : List Char) (v : List Char)
    (h : (varsStep st line).prefixLog = st.prefixLog ++ [v]) :
    v ∉ st.declared ∧ v ∈ (varsStep st line).declared := by
  revert h
  unfold varsStep
  dsimp only
  split
  · intro h; simp at h
  · split
    · split
      · intro h
        simp only [VarsState.prefixLog] at h
        have hv := (List.append_inj h rfl).2
        have hv2 : _ = v := List.singleton_injective hv
        subst hv2
        rename_i hcond
        constructor
        · intro hmem
          simp only [Bool.and_eq_true, decide_eq_true_eq] at hcond
          exact absurd hmem hcond.2
        · simpa using mem_setAdd_self st.declared _
      · intro h; simp at h
    · intro h; simp at h

/-- The Nodup/containment invariant of the declaration scan. -/
def varsInv (st : VarsState) : Prop :=
  st.prefixLog.Nodup ∧ ∀ v ∈ st.prefixLog, v ∈ st.declared

theorem varsStep_inv (st : VarsState) (line : List Char) (h : varsInv st) :
    varsInv (varsStep st line) := by
  obtain ⟨hnd, hsub⟩ := h
  unfold varsStep
  dsimp only
  split
  · exact ⟨hnd, hsub⟩
  · split
    · split
      · rename_i hcond
        simp only [Bool.and_eq_true, decide_eq_true_eq] at hcond
        constructor
        · simp only [VarsState.prefixLog]
          refine List.Nodup.append hnd (List.nodup_singleton _) ?_
          intro a ha hb
          have := hsub a ha
          rw [List.mem_singleton] at hb
          subst hb
          exact hcond.2 this
        · intro v hv
          simp only [VarsState.prefixLog, List.mem_append, List.mem_singleton] at hv
          rcases hv with hv | hv
          · exact setAdd_subset _ _ (hsub v hv)
          · subst hv; exact mem_setAdd_self _ _
      · exact ⟨hnd, hsub⟩
    · exact ⟨hnd, hsub⟩

theorem varsGo_inv (lines : List (List Char)) :
    ∀ st : VarsState, varsInv st → varsInv (varsGo st lines) := by
  induction lines with
  | nil => intro st h; exact h
  | cons line rest ih =>
    intro st h
    exact ih (varsStep st line) (varsStep_inv st line h)

theorem varsStep_pass_through (st : VarsState) (line : List Char) (v : List Char)
    (h1 : trimL line ≠ []) (h2 : declarationMatch (trimL line) = none)
    (h3 : assignmentMatch (trimL line) = some v) (h4 : v ∈ st.declared) :
    (varsStep st line).result = st.result ++ [line] ∧
    (varsStep st line).declared = st.declared := by
  unfold varsStep
  dsimp only
  rw [if_neg h1]
  simp only [h2, h3]
  rw [if_neg]
  · exact ⟨rfl, rfl⟩
  · simp [h4]

theorem popStep_inv (st : BlockState) (w : Nat)
    (h : st.opens = st.closes + st.stack.length) :
    (popStep st w).opens = (popStep st w).closes + (popStep st w).stack.length := by
  unfold popStep
  dsimp only
  have hlen := congrArg List.length
    (List.takeWhile_append_dropWhile (fun e => decide (w ≤ e)) st.stack)
  rw [List.length_append] at hlen
  omega

theorem popStep_opens (st : BlockState) (w : Nat) : (popStep st w).opens = st.opens := rfl

theorem funcGo_inv (lines : List (List Char)) :
    ∀ (i : Nat) (st : BlockState), st.opens = st.closes + st.stack.length →
      (funcGo i st lines).opens =
        (funcGo i st lines).closes + (funcGo i st lines).stack.length := by
  induction lines with
  | nil => intro i st h; exact h
  | cons line rest ih =>
    intro i st h
    have hp := popStep_inv st (indentWidth line) h
    unfold funcGo
    dsimp only
    split
    · split
      · apply ih
        simp only [List.length_cons]
        omega
      · apply ih
        simp only []
        omega
    · exact ih _ _ hp

theorem cbGo_inv (lines : List (List Char)) :
    ∀ (i : Nat) (st : BlockState), st.opens = st.closes + st.stack.length →
      (cbGo i st lines).opens =
        (cbGo i st lines).closes + (cbGo i st lines).stack.length := by
  induction lines with
  | nil => intro i st h; exact h
  | cons line rest ih =>
    intro i st h
    unfold cbGo
    dsimp only
    split
    · exact ih _ _ h
    · have hp := popStep_inv st (indentWidth line) h
      split
      · split
        · apply ih
          simp only [List.length_cons]
          omega
        · exact ih _ _ hp
      · exact ih _ _ hp

theorem trimL_eq_nil_all_ws (l : List Char) (h : trimL l = []) : ∀ c ∈ l, wsChar c := by
  unfold trimL at h
  rw [List.reverse_eq_nil_iff, List.dropWhile_eq_nil_iff] at h
  intro c hc
  rcases List.mem_append.mp
      ((List.takeWhile_append_dropWhile wsChar l) ▸ hc) with h1 | h1
  · exact List.mem_takeWhile_imp h1
  · exact h c (List.mem_reverse.mpr h1)

theorem const_dropWhile_nil (stack : List Nat) :
    stack.dropWhile (fun e => decide (0 ≤ e)) = [] := by
  rw [List.dropWhile_eq_nil_iff]
  intro x _
  simp

theorem drop_succ_of_drop_cons {α : Type} {all : List α} {i : Nat} {line : α}
    {rest : List α} (h : all.drop i = line :: rest) : all.drop (i + 1) = rest := by
  have h2 : all.drop (i + 1) = (all.drop i).drop 1 := by
    rw [List.drop_drop]
  rw [h2, h]
  rfl

theorem getD_of_drop_cons {all : List (List Char)} {i : Nat} {line : List Char}
    {rest : List (List Char)} (h : all.drop i = line :: rest) :
    all.getD i [] = line := by
  have h2 : all.get? i = (all.drop i).get? 0 := by
    rw [List.get?_drop]
    rfl
  have h3 : all.getD i [] = (all.get? i).getD [] := rfl
  rw [h3, h2, h]
  rfl

theorem funcGo_openerLog (all : List (List Char)) (suffix : List (List Char)) :
    ∀ (i : Nat) (st : BlockState),
      all.drop i = suffix →
      (∀ e ∈ st.openerLog, e.2 = immediateNextDeeper all e.1) →
      ∀ e ∈ (funcGo i st suffix).openerLog, e.2 = immediateNextDeeper all e.1 := by
  induction suffix with
  | nil => intro i st _ hst; exact hst
  | cons line rest ih =>
    intro i st hdrop hst
    have hrest : all.drop (i + 1) = rest := drop_succ_of_drop_cons hdrop
    have hline : all.getD i [] = line := getD_of_drop_cons hdrop
    unfold funcGo
    dsimp only
    split
    · split
      · rename_i hbody
        apply ih (i + 1) _ hrest
        intro e he
        rcases List.mem_append.mp he with he | he
        · exact hst e he
        · rw [List.mem_singleton] at he
          subst he
          show true = immediateNextDeeper all i
          unfold immediateNextDeeper
          rw [hrest, hline]
          cases rest with
          | nil => exact absurd hbody (by simp)
          | cons next r2 => exact hbody.symm
      · rename_i hbody
        apply ih (i + 1) _ hrest
        intro e he
        rcases List.mem_append.mp he with he | he
        · exact hst e he
        · rw [List.mem_singleton] at he
          subst he
          show false = immediateNextDeeper all i
          unfold immediateNextDeeper
          rw [hrest, hline]
          cases rest with
          | nil => rfl
          | cons next r2 =>
            simp only [Bool.not_eq_true] at hbody
            exact hbody.symm
    · exact ih (i + 1) _ hrest hst

theorem ceilDivInt_nonpos (x t : Int) (hx : x ≤ 0) (ht : 1 ≤ t) :
    ceilDivInt x t ≤ 0 := by
  unfold ceilDivInt
  have h := @Int.ediv_nonneg (-x) t (by omega) (by omega)
  omega

theorem ceilDivInt_pos (x t : Int) (hx : 1 ≤ x) (ht : 1 ≤ t) :
    1 ≤ ceilDivInt x t := by
  unfold ceilDivInt
  have h := @Int.ediv_neg' (-x) t (by omega) (by omega)
  omega

theorem ceilDivInt_sub (x t : Int) (ht : t ≠ 0) :
    ceilDivInt (x - t) t = ceilDivInt x t - 1 := by
  unfold ceilDivInt
  have h := Int.add_mul_ediv_right (-x) 1 ht
  have h2 : -(x - t) = -x + 1 * t := by ring
  rw [h2, h]
  ring

theorem range_map_eq_ascSeq (t : Int) (ht : 1 ≤ t) :
    ∀ (k : Nat) (a b : Int), (b - a).toNat ≤ k →
      jsArrayFrom (ceilDivInt (b - a) t) (fun i => a + i * t) = ascSeq k a b t := by
  intro k
  induction k with
  | zero =>
    intro a b hk
    have h0 : ceilDivInt (b - a) t ≤ 0 := ceilDivInt_nonpos _ _ (by omega) ht
    unfold ascSeq jsArrayFrom
    rw [show (ceilDivInt (b - a) t).toNat = 0 by omega]
    rfl
  | succ k ih =>
    intro a b hk
    by_cases hab : a < b
    · have h1 : 1 ≤ ceilDivInt (b - a) t := ceilDivInt_pos _ _ (by omega) ht
      have h2 : ceilDivInt (b - (a + t)) t = ceilDivInt (b - a) t - 1 := by
        rw [show b - (a + t) = (b - a) - t by ring]
        exact ceilDivInt_sub (b - a) t (by omega)
      unfold ascSeq
      rw [if_pos hab]
      unfold jsArrayFrom
      rw [show (ceilDivInt (b - a) t).toNat = (ceilDivInt (b - (a + t)) t).toNat + 1 by omega]
      rw [List.range_succ_eq_map]
      rw [List.map_cons, List.map_map]
      have htail := ih (a + t) b (by omega)
      unfold jsArrayFrom at htail
      rw [← htail]
      congr 1
      · simp
      · apply List.map_congr_left
        intro i _
        simp only [Function.comp_apply]
        push_cast
        ring
    · have h0 : ceilDivInt (b - a) t ≤ 0 := ceilDivInt_nonpos _ _ (by omega) ht
      unfold ascSeq
      rw [if_neg hab]
      unfold jsArrayFrom
      rw [show (ceilDivInt (b - a) t).toNat = 0 by omega]
      rfl

theorem range_map_eq_descSeq (t : Int) (ht : 1 ≤ t) :
    ∀ (k : Nat) (a b : Int), (a - b).toNat ≤ k →
      jsArrayFrom (ceilDivInt (a - b) t) (fun i => a - i * t) = descSeq k a b t := by
  intro k
  induction k with
  | zero =>
    intro a b hk
    have h0 : ceilDivInt (a - b) t ≤ 0 := ceilDivInt_nonpos _ _ (by omega) ht
    unfold descSeq jsArrayFrom
    rw [show (ceilDivInt (a - b) t).toNat = 0 by omega]
    rfl
  | succ k ih =>
    intro a b hk
    by_cases hab : b < a
    · have h1 : 1 ≤ ceilDivInt (a - b) t := ceilDivInt_pos _ _ (by omega) ht
      have h2 : ceilDivInt ((a - t) - b) t = ceilDivInt (a - b) t - 1 := by
        rw [show (a - t) - b = (a - b) - t by ring]
        exact ceilDivInt_sub (a - b) t (by omega)
      unfold descSeq
      rw [if_pos hab]
      unfold jsArrayFrom
      rw [show (ceilDivInt (a - b) t).toNat = (ceilDivInt ((a - t) - b) t).toNat + 1 by omega]
      rw [List.range_succ_eq_map]
      rw [List.map_cons, List.map_map]
      have htail := ih (a - t) b (by omega)
      unfold jsArrayFrom at htail
      rw [← htail]
      congr 1
      · simp
      · apply List.map_congr_left
        intro i _
        simp only [Function.comp_apply]
        push_cast
        ring
    · have h0 : ceilDivInt (a - b) t ≤ 0 := ceilDivInt_nonpos _ _ (by omega) ht
      unfold descSeq
      rw [if_neg hab]
      unfold jsArrayFrom
      rw [show (ceilDivInt (a - b) t).toNat = 0 by omega]
      rfl

theorem arraysGo_of_no_matches (n : Nat) (out : List Char)
    (h : collectMatches out = []) : arraysGo (n + 1) out = out := by
  unfold arraysGo arraysPass
  rw [h]
  rfl

theorem pickMax_spec (l : List AMatch) :
    ∀ m : AMatch, pickMax l = some m → m ∈ l ∧ ∀ m' ∈ l, m'.start ≤ m.start := by
  induction l with
  | nil => intro m h; cases h
  | cons a rest ih =>
    intro m h
    unfold pickMax at h
    cases hr : pickMax rest with
    | none =>
      rw [hr] at h
      cases h
      refine ⟨List.mem_cons_self a rest, ?_⟩
      intro m' hm'
      rcases List.mem_cons.mp hm' with rfl | hm'
      · exact le_refl _
      · cases rest with
        | nil => cases hm'
        | cons c r2 =>
          exact absurd hr (by unfold pickMax; cases pickMax r2 <;> simp)
    | some m1 =>
      rw [hr] at h
      obtain ⟨hmem, hmax⟩ := ih m1 hr
      have hm : m = if m1.start > a.start then m1 else a := by
        cases h; rfl
      by_cases hgt : m1.start > a.start
      · rw [if_pos hgt] at hm
        subst hm
        refine ⟨List.mem_cons_of_mem a hmem, ?_⟩
        intro m' hm'
        rcases List.mem_cons.mp hm' with rfl | hm'
        · omega
        · exact hmax m' hm'
      · rw [if_neg hgt] at hm
        subst hm
        refine ⟨List.mem_cons_self _ _, ?_⟩
        intro m' hm'
        rcases List.mem_cons.mp hm' with rfl | hm'
        · exact le_refl _
        · have := hmax m' hm'
          omega

theorem cbGo_openerLog (all : List (List Char)) (suffix : List (List Char)) :
    ∀ (i : Nat) (st : BlockState),
      all.drop i = suffix →
      (∀ e ∈ st.openerLog, e.2 = immediateNextDeeper all e.1) →
      ∀ e ∈ (cbGo i st suffix).openerLog, e.2 = immediateNextDeeper all e.1 := by
  induction suffix with
  | nil => intro i st _ hst; exact hst
  | cons line rest ih =>
    intro i st hdrop hst
    have hrest : all.drop (i + 1) = rest := drop_succ_of_drop_cons hdrop
    have hline : all.getD i [] = line := getD_of_drop_cons hdrop
    unfold cbGo
    dsimp only
    split
    · exact ih (i + 1) _ hrest hst
    · split
      · split
        · rename_i hbody
          apply ih (i + 1) _ hrest
          intro e he
          rcases List.mem_append.mp he with he | he
          · exact hst e he
          · rw [List.mem_singleton] at he
            subst he
            show true = immediateNextDeeper all i
            unfold immediateNextDeeper
            rw [hrest, hline]
            cases rest with
            | nil => exact absurd hbody (by simp)
            | cons next r2 => exact hbody.symm
        · rename_i hbody
          apply ih (i + 1) _ hrest
          intro e he
          rcases List.mem_append.mp he with he | he
          · exact hst e he
          · rw [List.mem_singleton] at he
            subst he
            show false = immediateNextDeeper all i
            unfold immediateNextDeeper
            rw [hrest, hline]
            cases rest with
            | nil => rfl
            | cons next r2 =>
              simp only [Bool.not_eq_true] at hbody
              exact hbody.symm
      · exact ih (i + 1) _ hrest hst

/-! ## Claim theorems -/

/-- C6: the DeclarationInferencer gives each identifier the declaration
keyword at most once per file — the declared-identifier set grows
monotonically at every step, a keyword is prepended only for an
identifier not yet in the set (and the prefixed identifiers of a run are
pairwise distinct), a later bare assignment to an already-declared
identifier passes through unchanged, and on `total = 0` followed by
`total = total + 5` only the first line receives the keyword. -/
theorem declaration_keyword_at_most_once :
    (∀ (st : VarsState) (line : List Char), st.declared ⊆ (varsStep st line).declared) ∧
    (∀ lines : List (List Char), (varsGo ⟨[], [], []⟩ lines).prefixLog.Nodup) ∧
    (∀ (st : VarsState) (line v : List Char),
        (varsStep st line).prefixLog = st.prefixLog ++ [v] →
        v ∉ st.declared ∧ v ∈ (varsStep st line).declared) ∧
    (∀ (st : VarsState) (line v : List Char),
        trimL line ≠ [] → declarationMatch (trimL line) = none →
        assignmentMatch (trimL line) = some v → v ∈ st.declared →
        (varsStep st line).result = st.result ++ [line] ∧
        (varsStep st line).declared = st.declared) ∧
    transformVariables "total = 0\ntotal = total + 5" =
      "let total = 0\ntotal = total + 5" := by
  refine ⟨varsStep_declared_sub, ?_, varsStep_prefixLog_new, varsStep_pass_through, by decide⟩
  intro lines
  exact (varsGo_inv lines ⟨[], [], []⟩ ⟨List.nodup_nil, by simp⟩).1

/-- C2: for every input, both structural passes emit as many opening
block delimiters as closing ones, their indentation stacks are empty when
the output is returned, and the returned line list is the scan's output
followed by one closing brace per entry still pending at end of file, at
that entry's recorded indentation, innermost (last-pushed) first. -/
theorem block_balance (s : String) :
    (unwindState (funcRun (splitNl s.toList))).opens =
      (unwindState (funcRun (splitNl s.toList))).closes ∧
    (unwindState (funcRun (splitNl s.toList))).stack = [] ∧
    (unwindState (funcRun (splitNl s.toList))).result =
      (funcRun (splitNl s.toList)).result ++
        (funcRun (splitNl s.toList)).stack.map closeLine ∧
    transformFunctionsL s.toList = joinNl (unwindState (funcRun (splitNl s.toList))).result ∧
    (unwindState (cbRun (splitNl s.toList))).opens =
      (unwindState (cbRun (splitNl s.toList))).closes ∧
    (unwindState (cbRun (splitNl s.toList))).stack = [] ∧
    (unwindState (cbRun (splitNl s.toList))).result =
      (cbRun (splitNl s.toList)).result ++
        (cbRun (splitNl s.toList)).stack.map closeLine ∧
    transformCodeBlocksL s.toList = joinNl (unwindState (cbRun (splitNl s.toList))).result := by
  have hf := funcGo_inv (splitNl s.toList) 0 ⟨[], [], 0, 0, []⟩ rfl
  have hc := cbGo_inv (splitNl s.toList) 0 ⟨[], [], 0, 0, []⟩ rfl
  refine ⟨?_, rfl, rfl, rfl, ?_, rfl, rfl, rfl⟩
  · unfold unwindState
    dsimp only
    unfold funcRun at hf ⊢
    omega
  · unfold unwindState
    dsimp only
    unfold cbRun at hc ⊢
    omega

/-- Witness for C6: the pass-through and monotonicity parts applied at a
concrete state and line. -/
theorem declaration_keyword_at_most_once_witness :
    (varsStep ⟨[], ["total".toList], []⟩ "total = total + 5".toList).result =
      [] ++ ["total = total + 5".toList] ∧
    (varsStep ⟨[], ["total".toList], []⟩ "total = total + 5".toList).declared =
      ["total".toList] :=
  declaration_keyword_at_most_once.2.2.2.1 ⟨[], ["total".toList], []⟩
    "total = total + 5".toList "total".toList
    (by decide) (by decide) (by decide) (by decide)

/-- C10: the FunctionHeaderExpander applies its stack-popping rule to
blank lines — a blank line's indentation width is the length of its
whitespace (0 for an empty line), and processing a blank line first pops
(and closes) every open function whose recorded width is at least that
value before emitting the line, so an empty line closes all open function
blocks; the ControlBlockNormalizer instead passes blank lines through,
leaving its stack untouched. -/
theorem blank_line_stack_behavior :
    (∀ line : List Char, trimL line = [] → indentWidth line = line.length) ∧
    (∀ (st : BlockState) (i : Nat) (line : List Char), trimL line = [] →
        funcGo i st [line] =
          { popStep st (indentWidth line) with
              result := (popStep st (indentWidth line)).result ++ [line] }) ∧
    (∀ (st : BlockState) (i : Nat), (funcGo i st [[]]).stack = []) ∧
    (∀ (st : BlockState) (i : Nat) (line : List Char), trimL line = [] →
        cbGo i st [line] = { st with result := st.result ++ [line] }) := by
  have hfunc : ∀ (st : BlockState) (i : Nat) (line : List Char), trimL line = [] →
      funcGo i st [line] =
        { popStep st (indentWidth line) with
            result := (popStep st (indentWidth line)).result ++ [line] } := by
    intro st i line h
    unfold funcGo
    dsimp only
    rw [h]
    rfl
  refine ⟨?_, hfunc, ?_, ?_⟩
  · intro line h
    unfold indentWidth
    rw [List.takeWhile_eq_self_iff.mpr (trimL_eq_nil_all_ws line h)]
  · intro st i
    rw [hfunc st i [] rfl]
    show (popStep st (indentWidth [])).stack = []
    unfold popStep
    dsimp only
    exact const_dropWhile_nil st.stack
  · intro st i line h
    unfold cbGo
    dsimp only
    rw [if_pos h]
    rfl

/-- Witness for C10: the blank-line behavior applied to a concrete state
with two pending openers. -/
theorem blank_line_stack_behavior_witness :
    (funcGo 0 ⟨[], [4, 2], 2, 0, []⟩ [[]]).stack = [] ∧
    cbGo 0 ⟨[], [4, 2], 2, 0, []⟩ [" ".toList] =
      ⟨[" ".toList], [4, 2], 2, 0, []⟩ := by
  constructor
  · exact blank_line_stack_behavior.2.2.1 ⟨[], [4, 2], 2, 0, []⟩ 0
  · have h := blank_line_stack_behavior.2.2.2 ⟨[], [4, 2], 2, 0, []⟩ 0
      (" ".toList) (by decide)
    simpa using h

/-- C3 counterexample: in both passes a header whose immediately
following line is blank is not pushed as an opener even though the next
non-blank line is strictly deeper — `f():` followed by a blank line and a
deeper body is closed at once (the body lands outside the emitted block),
and the control header `if(x)` in the same position receives no
delimiter at all; both refute the claimed equivalence with the
next-non-blank-line condition, and the control header also refutes the
claimed immediate closing delimiter. -/
theorem header_opener_counterexample :
    nextNonBlankDeeper ["f():".toList, [], "  x".toList] 0 = true ∧
    (funcRun ["f():".toList, [], "  x".toList]).openerLog = [(0, false)] ∧
    transformFunctions "f():\n\n  x" = "function f() \x7b\n\x7d\n\n  x" ∧
    nextNonBlankDeeper ["if(x)".toList, [], "  y".toList] 0 = true ∧
    (cbRun ["if(x)".toList, [], "  y".toList]).openerLog = [(0, false)] ∧
    transformCodeBlocks "if(x)\n\n  y" = "if(x)\n\n  y" := by
  decide

/-- C3 (amended): in both passes a matched header is pushed as a block
opener exactly when the line immediately after it exists, is non-blank,
and is indented strictly deeper than the header (a blank line directly
after the header therefore makes it a non-opener regardless of later
lines); a non-opener function header receives its closing brace
immediately, while a non-opener control header is emitted unchanged with
no delimiters. -/
theorem header_opener_immediate_next_line :
    (∀ (lines : List (List Char)) (i : Nat) (b : Bool),
      (i, b) ∈ (funcRun lines).openerLog → b = immediateNextDeeper lines i) ∧
    (∀ (lines : List (List Char)) (i : Nat) (b : Bool),
      (i, b) ∈ (cbRun lines).openerLog → b = immediateNextDeeper lines i) ∧
    transformFunctions "f():" = "function f() \x7b\n\x7d" ∧
    transformCodeBlocks "if(x)\nz = 1" = "if(x)\nz = 1" := by
  refine ⟨?_, ?_, by decide, by decide⟩
  · intro lines i b hmem
    exact funcGo_openerLog lines lines 0 ⟨[], [], 0, 0, []⟩ rfl (by simp) (i, b) hmem
  · intro lines i b hmem
    exact cbGo_openerLog lines lines 0 ⟨[], [], 0, 0, []⟩ rfl (by simp) (i, b) hmem

/-- Witness for C3 (amended): the opener decision logged for the header
of the counterexample input equals the immediate-next-line condition. -/
theorem header_opener_immediate_next_line_witness :
    false = immediateNextDeeper ["f():".toList, [], "  x".toList] 0 :=
  header_opener_immediate_next_line.1 ["f():".toList, [], "  x".toList] 0 false
    (by decide)

/-- C9 counterexample: the concatenation `"a" + "b"` is not a single
complete quoted literal, yet `isStringLiteral` classifies it as a string
literal — the claim requires the classification to return `false` here. -/
theorem literal_detection_counterexample :
    isStringLiteral "\"a\" + \"b\"".toList = true := by decide

/-- C9 (amended): `isStringLiteral` returns true exactly when the trimmed
argument text starts and ends with the same quote character, for one of
the three supported quote styles — with no check that the text is a
single complete quoted literal, so a concatenation of two literals is
also classified as a literal. -/
theorem literal_detection_start_end_only (s : List Char) :
    isStringLiteral s = true ↔
      ∃ q ∈ ['"', '\'', backquote],
        (trimL s).head? = some q ∧ (trimL s).getLast? = some q := by
  simp only [isStringLiteral, lastIs, Bool.or_eq_true, Bool.and_eq_true,
    decide_eq_true_eq, List.mem_cons, List.mem_singleton, List.not_mem_nil]
  constructor
  · rintro ((⟨h1, h2⟩ | ⟨h1, h2⟩) | ⟨h1, h2⟩)
    · exact ⟨'"', Or.inl rfl, h1, h2⟩
    · exact ⟨'\'', Or.inr (Or.inl rfl), h1, h2⟩
    · exact ⟨backquote, Or.inr (Or.inr (Or.inl rfl)), h1, h2⟩
  · rintro ⟨q, (rfl | rfl | rfl | hq), h1, h2⟩
    · exact Or.inl (Or.inl ⟨h1, h2⟩)
    · exact Or.inl (Or.inr ⟨h1, h2⟩)
    · exact Or.inr ⟨h1, h2⟩
    · exact hq.elim

theorem extractVariableName_eq_trim (e : List Char) :
    extractVariableName e = trimL e := by
  unfold extractVariableName
  dsimp only
  split_ifs <;> rfl

theorem labelParts_spec (args : List (List Char)) :
    ∀ first : Bool, (∀ a ∈ args, trimL a = a) →
      labelParts args first = specLabelParts args first := by
  induction args with
  | nil => intro first _; rfl
  | cons a rest ih =>
    intro first h
    unfold labelParts specLabelParts
    dsimp only
    rw [extractVariableName_eq_trim, h a (by simp),
      ih false (fun x hx => h x (by simp [hx]))]

/-- C8: the LogCallExpander rewrite agrees, on trimmed argument lists
(as produced by its argument splitter), with the by-count-and-kind
specification — zero arguments give a bare print call, one string
literal is printed unchanged, one non-literal argument is labelled with
its own source text suffixed with ` =>` followed by its value, two or
more all-non-literal arguments each carry their own source-text label
with every label after the first prefixed by a line break, and any other
multi-argument call passes its arguments through unchanged; scenario
instances at the buffer level included. -/
theorem log_rewrite_by_count_and_kind :
    (∀ args : List (List Char), (∀ a ∈ args, trimL a = a) →
        logReplacement args = logReplacementSpec args) ∧
    transformLog "log(total)" = "console.log('total =>', total)" ∧
    transformLog "log()" = "console.log()" ∧
    transformLog "log(\"hi\")" = "console.log(\"hi\")" ∧
    transformLog "log(a, b)" = "console.log('a =>', a, '\\nb =>', b)" ∧
    transformLog "log(\"x\", a)" = "console.log(\"x\", a)" ∧
    transformLog "log(a, \"x\", b)" = "console.log(a, \"x\", b)" := by
  refine ⟨?_, by decide, by decide, by decide, by decide, by decide, by decide⟩
  intro args h
  match args with
  | [] => rfl
  | [arg] =>
    unfold logReplacement logReplacementSpec
    dsimp only
    rw [extractVariableName_eq_trim, h arg (by simp)]
  | a :: b :: rest =>
    unfold logReplacement logReplacementSpec
    dsimp only
    rw [show (!(a :: b :: rest).all fun x => !isStringLiteral x) =
          ((a :: b :: rest).any fun x => isStringLiteral x) from
        (List.any_eq_not_all_not (a :: b :: rest) _).symm]
    split
    · rfl
    · rw [labelParts_spec (a :: b :: rest) true h]

/-- Witness for C8: the replacement agreement applied to a concrete
trimmed two-argument list. -/
theorem log_rewrite_by_count_and_kind_witness :
    logReplacement [['a'], ['b']] = logReplacementSpec [['a'], ['b']] :=
  log_rewrite_by_count_and_kind.1 [['a'], ['b']] (by decide)

/-- C5 counterexample: the LogCallExpander is not idempotent — its own
output `console.log('x =>', x)` still matches the located pattern (the
word boundary accepts the preceding dot), so a second run rewrites it
again, producing `console.console.log('x =>', x)`. -/
theorem log_idempotence_counterexample :
    transformLog (transformLog "log(x)") ≠ transformLog "log(x)" := by decide

/-- C5 (amended): the ExpressionSugarExpander is idempotent on every
input whose output admits no further rule candidates — which holds
whenever its pass loop stopped because a pass found nothing — while the
LogCallExpander is not idempotent: rerunning it on its own output can
rewrite the produced print calls again. -/
theorem expander_idempotence_amended :
    (∀ s : List Char, collectMatches (transformArraysL s) = [] →
        transformArraysL (transformArraysL s) = transformArraysL s) ∧
    transformLogL (transformLogL "log(x)".toList) ≠ transformLogL "log(x)".toList := by
  constructor
  · intro s h
    exact arraysGo_of_no_matches 99 (transformArraysL s) h
  · decide

/-- Witness for C5 (amended): a converged buffer on which rerunning the
expander changes nothing. -/
theorem expander_idempotence_amended_witness :
    collectMatches (transformArraysL "q".toList) = [] ∧
    transformArraysL (transformArraysL "q".toList) = transformArraysL "q".toList :=
  ⟨by decide, expander_idempotence_amended.1 "q".toList (by decide)⟩

/-- C4: the pass cap of the ExpressionSugarExpander returns the current
buffer silently — `arraysGo 0` (budget exhausted) is the identity, with
no diagnostic value in the return type — even though buffers with
pending valid matches exist, and a budget of one pass on a buffer with
two pending matches ends with a match still unexpanded.  The claim
describes the specified hardening; the source has no `ExpansionDivergence`
channel at all. -/
theorem pass_cap_silent_return :
    (∀ buf : List Char, arraysGo 0 buf = buf) ∧
    collectMatches "a.sum".toList ≠ [] ∧
    collectMatches (arraysGo 1 "a.sum;b.sum;".toList) ≠ [] := by
  exact ⟨fun buf => rfl, by decide, by decide⟩

/-- C1 counterexample: the buffer `a.sum ; b.sum ; x.sum(3)` contains two
textually valid occurrences of the sum rule (dots at offsets 1 and 9,
each passing the code's own validation and yielding a replacement
candidate), yet the pass performs no edit at all: only the rule's
rightmost textual occurrence (offset 17, arity-invalid) is examined, so
no candidate is collected and the expander returns the buffer
unchanged — refuting both that the valid occurrence with the largest
start offset is replaced and that a buffer with two valid occurrences at
different offsets gets its single edit at the larger offset. -/
theorem rightmost_selection_counterexample :
    propPatternAt "a.sum ; b.sum ; x.sum(3)".toList "sum".toList 1 = true ∧
    propPatternAt "a.sum ; b.sum ; x.sum(3)".toList "sum".toList 9 = true ∧
    (propCandidateZero "a.sum ; b.sum ; x.sum(3)".toList "sum".toList
        (fun e => e ++ ".reduce((a,b) => a + b, 0)".toList)
        (propBackScan "a.sum ; b.sum ; x.sum(3)".toList 1)).isSome = true ∧
    (propCandidateZero "a.sum ; b.sum ; x.sum(3)".toList "sum".toList
        (fun e => e ++ ".reduce((a,b) => a + b, 0)".toList)
        (propBackScan "a.sum ; b.sum ; x.sum(3)".toList 9)).isSome = true ∧
    rightmostPropPos "a.sum ; b.sum ; x.sum(3)".toList "sum".toList = some 17 ∧
    collectMatches "a.sum ; b.sum ; x.sum(3)".toList = [] ∧
    transformArraysL "a.sum ; b.sum ; x.sum(3)".toList =
      "a.sum ; b.sum ; x.sum(3)".toList := by
  decide

/-- C1 (amended): each pass collects at most one candidate per rule —
property rules contribute only their rightmost textual occurrence, when
it validates, and the standalone rule its rightmost valid occurrence —
and the pass then replaces the collected candidate with the largest
start offset, discarding the others; a rule whose rightmost textual
occurrence fails validation contributes nothing that pass even when a
valid occurrence exists further left. -/
theorem rightmost_candidate_selection :
    ∀ (buf : List Char) (m : AMatch),
      pickMax (collectMatches buf) = some m →
      m ∈ collectMatches buf ∧
      (∀ m' ∈ collectMatches buf, m'.start ≤ m.start) ∧
      (m.repl ≠ [] → arraysPass buf = some (splice buf m.start m.stop m.repl)) := by
  intro buf m h
  obtain ⟨hmem, hmax⟩ := pickMax_spec (collectMatches buf) m h
  refine ⟨hmem, hmax, ?_⟩
  intro hrepl
  unfold arraysPass
  rw [h]
  dsimp only
  rw [if_neg hrepl]

/-- Witness for C1 (amended): the selection applied on a concrete buffer
with one candidate. -/
theorem rightmost_candidate_selection_witness :
    arraysPass "a.sum".toList =
      some (splice "a.sum".toList 0 5 "a.reduce((a,b) => a + b, 0)".toList) :=
  (rightmost_candidate_selection "a.sum".toList
      ⟨0, 5, "a.reduce((a,b) => a + b, 0)".toList⟩ (by decide)).2.2 (by decide)

/-- C7: the replacement generated for `range(a,b)` denotes, for integer
arguments, the half-open sequence from `a` toward `b` (ascending with
step 1 when `a < b`, descending with step 1 otherwise, excluding `b`),
and the replacement for `range(a,b,s)` with `s ≠ 0` the same sequence
with step magnitude `|s|`; in particular `range(0,5)` denotes
`[0,1,2,3,4]` and `range(5,0)` denotes `[5,4,3,2,1]`, and the template
text emitted for arguments `0`, `5` is exactly the source template. -/
theorem range_denotes_half_open_sequence :
    (∀ a b : Int, range2Den a b = towardSeq a b 1) ∧
    (∀ a b s : Int, s ≠ 0 → range3Den a b s = towardSeq a b |s|) ∧
    towardSeq 0 5 1 = [0, 1, 2, 3, 4] ∧
    towardSeq 5 0 1 = [5, 4, 3, 2, 1] ∧
    rangeReplacement ["0".toList, "5".toList] =
      some ("((0) < (5) ? Array.from(\x7b length: (5) - (0) \x7d, (_, i) => (+0) + i) : Array.from(\x7b length: (0) - (5) \x7d, (_, i) => (+0) - i))".toList) := by
  have h3 : ∀ a b s : Int, s ≠ 0 → range3Den a b s = towardSeq a b |s| := by
    intro a b s hs
    have ht : 1 ≤ |s| := Int.one_le_abs hs
    unfold range3Den towardSeq
    by_cases hab : a < b
    · rw [if_pos hab, if_pos hab]
      exact range_map_eq_ascSeq |s| ht (b - a).toNat a b (le_refl _)
    · rw [if_neg hab, if_neg hab]
      exact range_map_eq_descSeq |s| ht (a - b).toNat a b (le_refl _)
  refine ⟨?_, h3, by decide, by decide, by decide⟩
  intro a b
  have h1 : range2Den a b = range3Den a b 1 := by
    unfold range2Den range3Den
    rw [abs_one]
    unfold jsArrayFrom ceilDivInt
    rw [Int.ediv_one, Int.ediv_one]
    simp only [neg_neg, mul_one]
  rw [h1, h3 a b 1 (by omega), abs_one]

/-- Witness for C7: the three-argument denotation applied at `a = 5`,
`b = 0`, `s = 2`. -/
theorem range_denotes_half_open_sequence_witness :
    range3Den 5 0 2 = towardSeq 5 0 |(2 : Int)| :=
  range_denotes_half_open_sequence.2.1 5 0 2 (by decide)

end LiteScript
